import Mathlib

/-!
Shallow embedding of the modular-integer type of src/src/modint.rs.

Conventions used throughout:
* Rust i64 values are modelled as Int; the one i64 operation in the source
  that can overflow inside the operating envelope (the product inside Mul
  and Div, whose operands can each approach 2^32) is modelled with explicit
  two's-complement wraparound via wrap64 (release-mode Rust semantics).
* Rust usize values are modelled as Nat; inside pow_mod both factors are
  kept below the modulus (itself below 2^32), so the usize products stay
  below 2^64 and no wraparound is inserted there.
* A Rust panic (modulus mismatch, unwrap of a Dynamic modulus, division of
  i64 by zero, a bad digit in from_str_radix) is modelled by Option, with
  none standing for the panic.
* Rust's truncating remainder operator on i64 is Int.tmod, and NonZeroU32
  moduli are carried as plain Nat with range hypotheses at the theorems.
-/

/-- Embedding of fn compensated_rem of modint.rs: n % m with Rust's
truncating remainder, adding m once when that remainder is negative. -/
def compensated_rem (n : Int) (m : Nat) : Int :=
  let r := n.tmod (m : Int)
  if r ≥ 0 then r else r + (m : Int)

/-- Embedding of enum Modulo of modint.rs.  The NonZeroU32 payload of
Static is carried as a Nat; its validity range 1 ≤ m ≤ 2^32 - 1 appears as
hypotheses of the theorems. -/
inductive Modulo where
  | Static (m : Nat)
  | Dynamic
deriving DecidableEq

/-- Embedding of Modulo::get. -/
def Modulo.get : Modulo → Option Nat
  | Modulo.Static m => some m
  | Modulo.Dynamic => none

/-- Embedding of struct ModInt of modint.rs. -/
structure ModInt where
  num : Int
  _modulo : Modulo
deriving DecidableEq

/-- Embedding of fn check_mod_eq of modint.rs.  The incompatible branches
return the placeholder NonZeroU32 value 1 paired with false, exactly as the
source does. -/
def check_mod_eq (a b : ModInt) : Nat × Bool :=
  match a._modulo, b._modulo with
  | Modulo.Static x, Modulo.Static y => if x = y then (x, true) else (1, false)
  | Modulo.Static m, Modulo.Dynamic => (m, true)
  | Modulo.Dynamic, Modulo.Static m => (m, true)
  | Modulo.Dynamic, Modulo.Dynamic => (1, false)

/-- Embedding of ModInt::new.  The Rust conversions panic outside the i64
and NonZeroU32 ranges; the theorems carry those ranges as hypotheses. -/
def ModInt.new (n : Int) (m : Nat) : ModInt :=
  { num := compensated_rem n m, _modulo := Modulo.Static m }

/-- Embedding of ModInt::get. -/
def ModInt.get (a : ModInt) : Int :=
  a.num

/-- Embedding of ModInt::get_mod, which unwraps the Static payload and
panics (none) on a Dynamic modulus. -/
def ModInt.get_mod (a : ModInt) : Option Nat :=
  a._modulo.get

/-- The Rust cast expression (x as usize) applied to an i64 value:
reduce into [0, 2^64) and read off the Nat. -/
def usizeOfI64 (x : Int) : Nat :=
  (x % (2 ^ 64 : Int)).toNat

/-- Two's-complement wraparound of an i64 intermediate (release-mode Rust
semantics for an overflowing i64 product). -/
def wrap64 (x : Int) : Int :=
  (x + 2 ^ 63) % 2 ^ 64 - 2 ^ 63

/-- The while loop inside ModInt::pow_mod: square-and-multiply over usize
with accumulator res and running base, both reduced mod m at every step.
(exp & 1 is exp % 2 and exp >> 1 is exp / 2.) -/
def powLoop (res base m exp : Nat) : Nat :=
  if h : exp = 0 then res
  else
    powLoop (if exp % 2 ≠ 0 then res * base % m else res) (base * base % m) m (exp / 2)
termination_by exp
decreasing_by exact Nat.div_lt_self (Nat.pos_of_ne_zero h) (by omega)

/-- Embedding of ModInt::pow_mod: panics (none) on a Dynamic modulus, else
runs the binary-powering loop and renormalizes the result through new. -/
def ModInt.pow_mod (a : ModInt) (exp : Nat) : Option ModInt :=
  match a.get_mod with
  | none => none
  | some m => some (ModInt.new (powLoop 1 (usizeOfI64 a.get) m exp) m)

/-- Embedding of the Pow impl for ModInt, which delegates to pow_mod. -/
def ModInt.pow (a : ModInt) (exp : Nat) : Option ModInt :=
  a.pow_mod exp

/-- The loop of the extended_gcd routine of the num-integer crate (the
external collaborator used by ModInt::inv).  State (r0, r1, s0, s1, t0, t1)
mirrors the Rust pairs r, s, t after the swap-and-subtract step; the
quotient uses i64 division, i.e. truncating division Int.tdiv. -/
def egcdLoop (r0 r1 s0 s1 t0 t1 : Int) : Int × Int × Int :=
  if h : r0 = 0 then (r1, s1, t1)
  else
    egcdLoop (r1 - r1.tdiv r0 * r0) r0 (s1 - r1.tdiv r0 * s0) s0 (t1 - r1.tdiv r0 * t0) t0
termination_by r0.natAbs
decreasing_by
  have h2 : r1 - r1.tdiv r0 * r0 = r1.tmod r0 := by
    rw [Int.tmod_def]; ring
  rw [h2]
  rcases r1 with m | m <;> rcases r0 with n | n
  · have hn : n ≠ 0 := by simpa using h
    simpa [Int.tmod] using Nat.mod_lt _ (Nat.pos_of_ne_zero hn)
  · simpa [Int.tmod] using Nat.mod_lt _ (Nat.succ_pos n)
  · have hn : n ≠ 0 := by simpa using h
    simpa [Int.tmod] using Nat.mod_lt _ (Nat.pos_of_ne_zero hn)
  · simpa [Int.tmod] using Nat.mod_lt _ (Nat.succ_pos n)

/-- extended_gcd of the num-integer crate: returns (gcd, x, y) with
self * x + other * y = gcd, where self is the first argument.  Initial
state r = (other, self), s = (0, 1), t = (1, 0) as in the crate source. -/
def extended_gcd (a b : Int) : Int × Int × Int :=
  egcdLoop b a 0 1 1 0

/-- Embedding of ModInt::inv: the Bezout coefficient x of
extended_gcd(residue, m), normalized by compensated_rem.  Panics (none)
when the modulus is Dynamic, because get_mod does. -/
def ModInt.inv (a : ModInt) : Option Int :=
  match a.get_mod with
  | none => none
  | some m => some (compensated_rem (extended_gcd a.get (m : Int)).2.1 m)

/-- Embedding of the Add impl for ModInt.  Note the source compares the
raw sum against self.get_mod() (the LEFT operand's modulus, panicking when
the left operand is Dynamic) while subtracting the shared modulus c.0. -/
def ModInt.add (a rhs : ModInt) : Option ModInt :=
  let c := check_mod_eq a rhs
  if !c.2 then none
  else
    match a.get_mod with
    | none => none
    | some selfMod =>
      let r := a.get + rhs.num
      some { num := if r ≥ (selfMod : Int) then r - (c.1 : Int) else r,
             _modulo := Modulo.Static c.1 }

/-- Embedding of the Sub impl for ModInt. -/
def ModInt.sub (a rhs : ModInt) : Option ModInt :=
  let c := check_mod_eq a rhs
  if !c.2 then none
  else some { num := compensated_rem (a.get - rhs.get) c.1, _modulo := Modulo.Static c.1 }

/-- Embedding of the Mul impl for ModInt.  The i64 product of the two
residues is modelled with two's-complement wraparound, since it can exceed
i64::MAX when the modulus approaches 2^32. -/
def ModInt.mul (a rhs : ModInt) : Option ModInt :=
  let c := check_mod_eq a rhs
  if !c.2 then none
  else some { num := compensated_rem (wrap64 (a.get * rhs.get)) c.1,
              _modulo := Modulo.Static c.1 }

/-- Embedding of the Div impl for ModInt: residue * rhs.inv() % m with a
plain truncating remainder (no compensation), the i64 product again
modelled with wraparound. -/
def ModInt.div (a rhs : ModInt) : Option ModInt :=
  let c := check_mod_eq a rhs
  if !c.2 then none
  else
    match rhs.inv with
    | none => none
    | some i =>
      some { num := (wrap64 (a.get * i)).tmod (c.1 : Int), _modulo := Modulo.Static c.1 }

/-- Embedding of the Rem impl for ModInt: self.num % rhs.num directly;
an i64 remainder by zero panics (none). -/
def ModInt.rem (a rhs : ModInt) : Option ModInt :=
  let c := check_mod_eq a rhs
  if !c.2 then none
  else if rhs.num = 0 then none
  else some { num := a.num.tmod rhs.num, _modulo := Modulo.Static c.1 }

/-- Embedding of the PartialEq impl for ModInt: panics (none) when the
moduli are incompatible, else compares self.get() with other.num. -/
def ModInt.eq (a other : ModInt) : Option Bool :=
  if !(check_mod_eq a other).2 then none
  else some (decide (a.get = other.num))

/-- Embedding of the PartialOrd impl for ModInt (Rust partial_cmp):
returns none (incomparable) when the moduli are incompatible, else the
ordering of the residues. -/
def ModInt.pcmp (a other : ModInt) : Option Ordering :=
  if !(check_mod_eq a other).2 then none
  else some (compare a.get other.num)

/-- Embedding of Zero::zero for ModInt: residue 0 with a Dynamic modulus. -/
def ModInt.zero : ModInt :=
  { num := 0, _modulo := Modulo.Dynamic }

/-- Embedding of One::one for ModInt: residue 1 with a Dynamic modulus. -/
def ModInt.one : ModInt :=
  { num := 1, _modulo := Modulo.Dynamic }

/-- Embedding of Zero::is_zero for ModInt. -/
def ModInt.is_zero (a : ModInt) : Bool :=
  a.num == 0

/-- Embedding of One::is_one for ModInt. -/
def ModInt.is_one (a : ModInt) : Bool :=
  a.num == 1

/-- Rust char::to_digit(radix): digits 0-9 then letters (either case)
valued 10..35, valid when strictly below the radix. -/
def to_digit (ch : Char) (radix : Nat) : Option Nat :=
  let d : Option Nat :=
    if '0' ≤ ch ∧ ch ≤ '9' then some (ch.toNat - '0'.toNat)
    else if 'a' ≤ ch ∧ ch ≤ 'z' then some (ch.toNat - 'a'.toNat + 10)
    else if 'A' ≤ ch ∧ ch ≤ 'Z' then some (ch.toNat - 'A'.toNat + 10)
    else none
  match d with
  | some v => if v < radix then some v else none
  | none => none

/-- Embedding of Num::from_str_radix for ModInt: sum over the reversed,
enumerated characters of radix^i * digit, producing a Dynamic-modulus
value.  The u32 power wraps mod 2^32 and the i64 sum wraps mod 2^64
(release-mode semantics); a bad digit makes to_digit's unwrap panic
(none). -/
def from_str_radix (s : List Char) (radix : Nat) : Option ModInt :=
  (s.reverse.enum.mapM (fun p => (to_digit p.2 radix).map
      (fun d => (radix ^ p.1 % 2 ^ 32) * d))).map
    (fun terms => { num := wrap64 ((terms.sum : Nat) : Int), _modulo := Modulo.Dynamic })

/-- The representation invariant stated in the spec: a Static modulus m
bounds the residue into [0, m), and a Dynamic value holds residue 0 or 1
(identity seeds only). -/
def SpecInvariant (a : ModInt) : Prop :=
  match a._modulo with
  | Modulo.Static m => 0 ≤ a.num ∧ a.num < (m : Int)
  | Modulo.Dynamic => a.num = 0 ∨ a.num = 1

instance (a : ModInt) : Decidable (SpecInvariant a) :=
  match h : a._modulo with
  | Modulo.Static m =>
    decidable_of_iff (0 ≤ a.num ∧ a.num < (m : Int)) (by simp [SpecInvariant, h])
  | Modulo.Dynamic =>
    decidable_of_iff (a.num = 0 ∨ a.num = 1) (by simp [SpecInvariant, h])

/-- Kernel-computable reformulation of egcdLoop with an explicit fuel
counter, used only to evaluate the loop on concrete inputs; proven equal
to egcdLoop whenever the fuel exceeds the iteration count. -/
def egcdFuel (fuel : Nat) (r0 r1 s0 s1 t0 t1 : Int) : Int × Int × Int :=
  match fuel with
  | 0 => (r1, s1, t1)
  | fuel + 1 =>
    if r0 = 0 then (r1, s1, t1)
    else egcdFuel fuel (r1 - r1.tdiv r0 * r0) r0 (s1 - r1.tdiv r0 * s0) s0 (t1 - r1.tdiv r0 * t0) t0

/-- Kernel-computable reformulation of powLoop with an explicit fuel
counter, used only to evaluate the loop on concrete inputs. -/
def powFuel (fuel res base m exp : Nat) : Nat :=
  match fuel with
  | 0 => res
  | fuel + 1 =>
    if exp = 0 then res
    else powFuel fuel (if exp % 2 ≠ 0 then res * base % m else res) (base * base % m) m (exp / 2)

theorem natAbs_tmod_lt (a b : Int) (hb : b ≠ 0) : (a.tmod b).natAbs < b.natAbs := by
  rcases a with m | m <;> rcases b with n | n
  · have hn : n ≠ 0 := by simpa using hb
    simpa [Int.tmod] using Nat.mod_lt _ (Nat.pos_of_ne_zero hn)
  · simpa [Int.tmod] using Nat.mod_lt _ (Nat.succ_pos n)
  · have hn : n ≠ 0 := by simpa using hb
    simpa [Int.tmod] using Nat.mod_lt _ (Nat.pos_of_ne_zero hn)
  · simpa [Int.tmod] using Nat.mod_lt _ (Nat.succ_pos n)

theorem tmod_sub_tdiv_mul (r1 r0 : Int) : r1 - r1.tdiv r0 * r0 = r1.tmod r0 := by
  rw [Int.tmod_def]; ring

theorem egcdLoop_eq_fuel (fuel : Nat) (r0 r1 s0 s1 t0 t1 : Int) :
    r0.natAbs < fuel → egcdLoop r0 r1 s0 s1 t0 t1 = egcdFuel fuel r0 r1 s0 s1 t0 t1 := by
  induction r0, r1, s0, s1, t0, t1 using egcdLoop.induct generalizing fuel with
  | case1 r1 s0 s1 t0 t1 =>
    intro hf
    cases fuel with
    | zero => omega
    | succ f =>
      rw [egcdLoop]
      simp [egcdFuel]
  | case2 r0 r1 s0 s1 t0 t1 h0 ih =>
    intro hf
    cases fuel with
    | zero => omega
    | succ f =>
      rw [egcdLoop]
      simp only [egcdFuel]
      rw [dif_neg h0, if_neg h0]
      apply ih
      rw [tmod_sub_tdiv_mul]
      have := natAbs_tmod_lt r1 r0 h0
      omega

theorem powLoop_eq_fuel (fuel res base m exp : Nat) :
    exp < fuel → powLoop res base m exp = powFuel fuel res base m exp := by
  induction res, base, m, exp using powLoop.induct generalizing fuel with
  | case1 res base m =>
    intro hf
    cases fuel with
    | zero => omega
    | succ f =>
      rw [powLoop]
      simp [powFuel]
  | case2 res base m exp h0 ih =>
    intro hf
    cases fuel with
    | zero => omega
    | succ f =>
      rw [powLoop]
      simp only [powFuel]
      rw [dif_neg h0, if_neg h0]
      apply ih
      omega

theorem tmod_natCast_lower (n : Int) (m : Nat) (hm : 0 < m) :
    -(m : Int) < n.tmod (m : Int) := by
  rcases n with k | k
  · have h1 : (0 : Int) ≤ (Int.ofNat k).tmod (m : Int) :=
      Int.tmod_nonneg _ (Int.ofNat_nonneg k)
    omega
  · have h1 : (Int.negSucc k).tmod (m : Int) = -(((k + 1) % m : Nat) : Int) := rfl
    have h2 : (k + 1) % m < m := Nat.mod_lt _ hm
    rw [h1]
    omega

theorem compensated_rem_eq_emod (n : Int) (m : Nat) (hm : 0 < m) :
    compensated_rem n m = n % (m : Int) := by
  have hb : (0 : Int) < (m : Int) := by exact_mod_cast hm
  have hub := Int.tmod_lt_of_pos n hb
  have hlb := tmod_natCast_lower n m hm
  have hcong : n.tmod (m : Int) % (m : Int) = n % (m : Int) := by
    conv_rhs => rw [← Int.tdiv_add_tmod n (m : Int)]
    rw [add_comm, Int.add_mul_emod_self_left]
  unfold compensated_rem
  by_cases hr : 0 ≤ n.tmod (m : Int)
  · rw [if_pos hr, ← hcong, Int.emod_eq_of_lt hr hub]
  · push_neg at hr
    rw [if_neg (by omega)]
    have h0 : 0 ≤ n.tmod (m : Int) + (m : Int) := by omega
    have h1 : n.tmod (m : Int) + (m : Int) < (m : Int) := by omega
    calc n.tmod (m : Int) + (m : Int)
        = (n.tmod (m : Int) + (m : Int) * 1) % (m : Int) := by
          rw [mul_one, Int.emod_eq_of_lt h0 h1]
      _ = n.tmod (m : Int) % (m : Int) := Int.add_mul_emod_self_left _ _ _
      _ = n % (m : Int) := hcong

theorem compensated_rem_nonneg (n : Int) (m : Nat) (hm : 0 < m) :
    0 ≤ compensated_rem n m := by
  rw [compensated_rem_eq_emod n m hm]
  exact Int.emod_nonneg n (by exact_mod_cast Nat.pos_iff_ne_zero.mp hm)

theorem compensated_rem_lt (n : Int) (m : Nat) (hm : 0 < m) :
    compensated_rem n m < (m : Int) := by
  rw [compensated_rem_eq_emod n m hm]
  exact Int.emod_lt_of_pos n (by exact_mod_cast hm)

theorem wrap64_id (x : Int) (h1 : -(2 ^ 63) ≤ x) (h2 : x < 2 ^ 63) : wrap64 x = x := by
  unfold wrap64
  rw [Int.emod_eq_of_lt (by omega) (by omega)]
  omega

theorem egcdLoop_linear (a b r0 r1 s0 s1 t0 t1 : Int) :
    a * s0 + b * t0 = r0 → a * s1 + b * t1 = r1 →
    a * (egcdLoop r0 r1 s0 s1 t0 t1).2.1 + b * (egcdLoop r0 r1 s0 s1 t0 t1).2.2 =
      (egcdLoop r0 r1 s0 s1 t0 t1).1 := by
  induction r0, r1, s0, s1, t0, t1 using egcdLoop.induct with
  | case1 r1 s0 s1 t0 t1 =>
    intro h0 h1
    rw [egcdLoop]
    simpa using h1
  | case2 r0 r1 s0 s1 t0 t1 h ih =>
    intro h0 h1
    rw [egcdLoop, dif_neg h]
    apply ih
    · linear_combination h1 - r1.tdiv r0 * h0
    · exact h0

theorem egcdLoop_dvd (r0 r1 s0 s1 t0 t1 : Int) :
    (egcdLoop r0 r1 s0 s1 t0 t1).1 ∣ r0 ∧ (egcdLoop r0 r1 s0 s1 t0 t1).1 ∣ r1 := by
  induction r0, r1, s0, s1, t0, t1 using egcdLoop.induct with
  | case1 r1 s0 s1 t0 t1 =>
    rw [egcdLoop]
    simp
  | case2 r0 r1 s0 s1 t0 t1 h ih =>
    rw [egcdLoop, dif_neg h]
    refine ⟨ih.2, ?_⟩
    have h2 := dvd_add ih.1 (Dvd.dvd.mul_left ih.2 (r1.tdiv r0))
    simpa using h2

theorem egcdLoop_nonneg (r0 r1 s0 s1 t0 t1 : Int) :
    0 ≤ r0 → 0 ≤ r1 → 0 ≤ (egcdLoop r0 r1 s0 s1 t0 t1).1 := by
  induction r0, r1, s0, s1, t0, t1 using egcdLoop.induct with
  | case1 r1 s0 s1 t0 t1 =>
    intro h0 h1
    rw [egcdLoop]
    simpa using h1
  | case2 r0 r1 s0 s1 t0 t1 h ih =>
    intro h0 h1
    rw [egcdLoop, dif_neg h]
    apply ih
    · rw [tmod_sub_tdiv_mul]
      exact Int.tmod_nonneg _ h1
    · exact h0

/-- Combined specification of the external extended_gcd on the inputs inv
feeds it (a nonnegative residue and a positive modulus): the returned
first component is nonnegative, divides both inputs, and is the linear
combination of the inputs by the returned Bezout coefficients. -/
theorem extended_gcd_spec (a b : Int) (ha : 0 ≤ a) (hb : 0 ≤ b) :
    a * (extended_gcd a b).2.1 + b * (extended_gcd a b).2.2 = (extended_gcd a b).1 ∧
    (extended_gcd a b).1 ∣ a ∧ (extended_gcd a b).1 ∣ b ∧ 0 ≤ (extended_gcd a b).1 := by
  unfold extended_gcd
  refine ⟨egcdLoop_linear a b b a 0 1 1 0 (by ring) (by ring), ?_, ?_, ?_⟩
  · exact (egcdLoop_dvd b a 0 1 1 0).2
  · exact (egcdLoop_dvd b a 0 1 1 0).1
  · exact egcdLoop_nonneg b a 0 1 1 0 hb ha

theorem powLoop_mod (res base m exp : Nat) :
    0 < m → powLoop res base m exp % m = res * base ^ exp % m := by
  induction res, base, m, exp using powLoop.induct with
  | case1 res base m =>
    intro hm
    rw [powLoop]
    simp
  | case2 res base m exp h0 ih =>
    intro hm
    rw [powLoop, dif_neg h0]
    simp only [dite_eq_ite] at ih
    rw [ih hm]
    have hsq : (base * base % m) ^ (exp / 2) % m = (base * base) ^ (exp / 2) % m := by
      rw [← Nat.pow_mod]
    by_cases hp : exp % 2 = 0
    · have h2 : 2 * (exp / 2) = exp := by omega
      simp only [hp, ne_eq, not_true_eq_false, if_false, ite_false]
      calc res * (base * base % m) ^ (exp / 2) % m
          = res % m * ((base * base % m) ^ (exp / 2) % m) % m := by rw [Nat.mul_mod]
        _ = res % m * ((base * base) ^ (exp / 2) % m) % m := by rw [hsq]
        _ = res * (base * base) ^ (exp / 2) % m := by rw [← Nat.mul_mod]
        _ = res * base ^ exp % m := by
            rw [show base * base = base ^ 2 by ring, ← pow_mul, h2]
    · have h2 : 2 * (exp / 2) + 1 = exp := by omega
      simp only [hp, ne_eq, if_true, ite_true]
      calc res * base % m * (base * base % m) ^ (exp / 2) % m
          = res * base % m * ((base * base % m) ^ (exp / 2) % m) % m := by
            conv_lhs => rw [Nat.mul_mod, Nat.mod_mod_of_dvd _ dvd_rfl]
        _ = res * base % m * ((base * base) ^ (exp / 2) % m) % m := by rw [hsq]
        _ = res * base * (base * base) ^ (exp / 2) % m := by rw [← Nat.mul_mod]
        _ = res * base ^ exp % m := by
            rw [show base * base = base ^ 2 by ring, ← pow_mul]
            rw [show res * base * base ^ (2 * (exp / 2)) = res * base ^ (2 * (exp / 2) + 1) by ring, h2]

/-- Characterization of Add on two operands sharing a Static modulus. -/
theorem add_static (a b : ModInt) (m : Nat)
    (ha : a._modulo = Modulo.Static m) (hb : b._modulo = Modulo.Static m) :
    ModInt.add a b =
      some { num := if a.num + b.num ≥ (m : Int) then a.num + b.num - (m : Int) else a.num + b.num,
             _modulo := Modulo.Static m } := by
  simp [ModInt.add, check_mod_eq, ha, hb, ModInt.get_mod, Modulo.get, ModInt.get]

/-- Characterization of Sub on two operands sharing a Static modulus. -/
theorem sub_static (a b : ModInt) (m : Nat)
    (ha : a._modulo = Modulo.Static m) (hb : b._modulo = Modulo.Static m) :
    ModInt.sub a b =
      some { num := compensated_rem (a.num - b.num) m, _modulo := Modulo.Static m } := by
  simp [ModInt.sub, check_mod_eq, ha, hb, ModInt.get]

/-- Characterization of Mul on two operands sharing a Static modulus. -/
theorem mul_static (a b : ModInt) (m : Nat)
    (ha : a._modulo = Modulo.Static m) (hb : b._modulo = Modulo.Static m) :
    ModInt.mul a b =
      some { num := compensated_rem (wrap64 (a.num * b.num)) m, _modulo := Modulo.Static m } := by
  simp [ModInt.mul, check_mod_eq, ha, hb, ModInt.get]

/-- Characterization of inv on a Static-modulus operand. -/
theorem inv_static (a : ModInt) (m : Nat) (ha : a._modulo = Modulo.Static m) :
    ModInt.inv a = some (compensated_rem (extended_gcd a.num (m : Int)).2.1 m) := by
  simp [ModInt.inv, ModInt.get_mod, Modulo.get, ha, ModInt.get]

/-- Characterization of pow on a Static-modulus operand. -/
theorem pow_static (a : ModInt) (m : Nat) (ha : a._modulo = Modulo.Static m) (e : Nat) :
    ModInt.pow a e = some (ModInt.new ((powLoop 1 (usizeOfI64 a.num) m e : Nat) : Int) m) := by
  simp [ModInt.pow, ModInt.pow_mod, ModInt.get_mod, Modulo.get, ha, ModInt.get]

theorem specInvariant_nonneg (a : ModInt) (h : SpecInvariant a) : 0 ≤ a.num := by
  obtain ⟨n, mo⟩ := a
  cases mo <;> simp [SpecInvariant] at h ⊢ <;> omega

/-- Claim C1: for every i64 n and modulus 1 ≤ m ≤ 2^32 - 1, new(n, m)
yields a residue in [0, m) congruent to n mod m, computed as the
truncating remainder plus m exactly once when that remainder is negative;
in particular new(10, 3).get() = 1 and new(-10, 3).get() = 2. -/
theorem claim_c1_construction (n : Int) (m : Nat)
    (hm1 : 1 ≤ m) (hm2 : m ≤ 2 ^ 32 - 1)
    (hn : -(2 ^ 63) ≤ n ∧ n < 2 ^ 63) :
    (0 ≤ (ModInt.new n m).get ∧ (ModInt.new n m).get < (m : Int)) ∧
    (ModInt.new n m).get % (m : Int) = n % (m : Int) ∧
    (ModInt.new n m).get =
      (if n.tmod (m : Int) ≥ 0 then n.tmod (m : Int) else n.tmod (m : Int) + (m : Int)) ∧
    (ModInt.new 10 3).get = 1 ∧ (ModInt.new (-10) 3).get = 2 := by
  have hm : 0 < m := hm1
  have hget : (ModInt.new n m).get = compensated_rem n m := rfl
  refine ⟨⟨?_, ?_⟩, ?_, rfl, by decide, by decide⟩
  · rw [hget]; exact compensated_rem_nonneg n m hm
  · rw [hget]; exact compensated_rem_lt n m hm
  · rw [hget, compensated_rem_eq_emod n m hm]
    exact Int.emod_emod_of_dvd n dvd_rfl

theorem claim_c1_construction_witness :
    (ModInt.new 10 3).get % (3 : Int) = 10 % 3 ∧ (ModInt.new (-10) 3).get = 2 :=
  ⟨(claim_c1_construction 10 3 (by decide) (by decide) (by decide)).2.1,
   (claim_c1_construction 10 3 (by decide) (by decide) (by decide)).2.2.2.2⟩

/-- Claim C5: on two operands sharing a Fixed modulus m, addition yields
(a.residue + b.residue) mod m by subtracting m at most once, and
subtraction yields (a.residue - b.residue) mod m through the compensated
remainder; new(13, 8) + new(10, 8) has residue 7. -/
theorem claim_c5_add_sub_laws (a b : ModInt) (m : Nat)
    (ha : a._modulo = Modulo.Static m) (hb : b._modulo = Modulo.Static m)
    (hia : 0 ≤ a.num ∧ a.num < (m : Int)) (hib : 0 ≤ b.num ∧ b.num < (m : Int)) :
    ModInt.add a b = some { num := (a.num + b.num) % (m : Int), _modulo := Modulo.Static m } ∧
    ModInt.sub a b = some { num := (a.num - b.num) % (m : Int), _modulo := Modulo.Static m } ∧
    (ModInt.add (ModInt.new 13 8) (ModInt.new 10 8)).map ModInt.get = some 7 := by
  have hm : 0 < m := by omega
  refine ⟨?_, ?_, by decide⟩
  · rw [add_static a b m ha hb]
    have hnum : (if a.num + b.num ≥ (m : Int) then a.num + b.num - (m : Int) else a.num + b.num)
        = (a.num + b.num) % (m : Int) := by
      by_cases hc : a.num + b.num ≥ (m : Int)
      · rw [if_pos hc]
        have h1 : (a.num + b.num) % (m : Int) = (a.num + b.num + (m : Int) * (-1)) % (m : Int) :=
          (Int.add_mul_emod_self_left _ _ _).symm
        rw [h1, Int.emod_eq_of_lt (by omega) (by omega)]
        ring
      · rw [if_neg hc, Int.emod_eq_of_lt (by omega) (by omega)]
    rw [hnum]
  · rw [sub_static a b m ha hb, compensated_rem_eq_emod _ _ hm]

theorem claim_c5_add_sub_laws_witness :
    ModInt.add (ModInt.new 3 5) (ModInt.new 4 5) =
      some { num := ((ModInt.new 3 5).num + (ModInt.new 4 5).num) % (5 : Int),
             _modulo := Modulo.Static 5 } ∧
    ModInt.sub (ModInt.new 3 5) (ModInt.new 4 5) =
      some { num := ((ModInt.new 3 5).num - (ModInt.new 4 5).num) % (5 : Int),
             _modulo := Modulo.Static 5 } :=
  ⟨(claim_c5_add_sub_laws (ModInt.new 3 5) (ModInt.new 4 5) 5 rfl rfl
      (by decide) (by decide)).1,
   (claim_c5_add_sub_laws (ModInt.new 3 5) (ModInt.new 4 5) 5 rfl rfl
      (by decide) (by decide)).2.1⟩

/-- Claim C7: when the operand moduli are incompatible (two distinct Fixed
values, or both Unset), every binary arithmetic operator and the equality
test panic (modelled as none) rather than returning a value. -/
theorem claim_c7_incompatible_ops_panic (a b : ModInt)
    (h : (∃ x y, a._modulo = Modulo.Static x ∧ b._modulo = Modulo.Static y ∧ x ≠ y) ∨
         (a._modulo = Modulo.Dynamic ∧ b._modulo = Modulo.Dynamic)) :
    ModInt.add a b = none ∧ ModInt.sub a b = none ∧ ModInt.mul a b = none ∧
    ModInt.div a b = none ∧ ModInt.rem a b = none ∧ ModInt.eq a b = none := by
  have hc : (check_mod_eq a b).2 = false := by
    rcases h with ⟨x, y, hx, hy, hxy⟩ | ⟨hx, hy⟩
    · simp [check_mod_eq, hx, hy, hxy]
    · simp [check_mod_eq, hx, hy]
  refine ⟨?_, ?_, ?_, ?_, ?_, ?_⟩ <;>
    simp [ModInt.add, ModInt.sub, ModInt.mul, ModInt.div, ModInt.rem, ModInt.eq, hc]

theorem claim_c7_incompatible_ops_panic_witness :
    ModInt.add (ModInt.new 1 10) (ModInt.new 1 7) = none ∧
    ModInt.sub (ModInt.new 1 10) (ModInt.new 1 7) = none ∧
    ModInt.mul (ModInt.new 1 10) (ModInt.new 1 7) = none ∧
    ModInt.div (ModInt.new 1 10) (ModInt.new 1 7) = none ∧
    ModInt.rem (ModInt.new 1 10) (ModInt.new 1 7) = none ∧
    ModInt.eq (ModInt.new 1 10) (ModInt.new 1 7) = none :=
  claim_c7_incompatible_ops_panic (ModInt.new 1 10) (ModInt.new 1 7)
    (Or.inl ⟨10, 7, rfl, rfl, by decide⟩)

/-- Claim C9: partial-order comparison is the one cross-modulus operation
that does not abort: it returns none (incomparable) on incompatible moduli
and the ordering of the residues on compatible ones. -/
theorem claim_c9_pcmp_graceful (a b : ModInt) :
    (((∃ x y, a._modulo = Modulo.Static x ∧ b._modulo = Modulo.Static y ∧ x ≠ y) ∨
      (a._modulo = Modulo.Dynamic ∧ b._modulo = Modulo.Dynamic)) →
      ModInt.pcmp a b = none) ∧
    (((∃ x, a._modulo = Modulo.Static x ∧ b._modulo = Modulo.Static x) ∨
      (∃ x, a._modulo = Modulo.Static x ∧ b._modulo = Modulo.Dynamic) ∨
      (∃ x, a._modulo = Modulo.Dynamic ∧ b._modulo = Modulo.Static x)) →
      ModInt.pcmp a b = some (compare a.num b.num)) := by
  constructor
  · intro h
    have hc : (check_mod_eq a b).2 = false := by
      rcases h with ⟨x, y, hx, hy, hxy⟩ | ⟨hx, hy⟩
      · simp [check_mod_eq, hx, hy, hxy]
      · simp [check_mod_eq, hx, hy]
    simp [ModInt.pcmp, hc]
  · intro h
    have hc : (check_mod_eq a b).2 = true := by
      rcases h with ⟨x, hx, hy⟩ | ⟨x, hx, hy⟩ | ⟨x, hx, hy⟩ <;> simp [check_mod_eq, hx, hy]
    simp [ModInt.pcmp, hc, ModInt.get]

theorem claim_c9_pcmp_graceful_witness :
    ModInt.pcmp (ModInt.new 1 10) (ModInt.new 1 7) = none ∧
    ModInt.pcmp (ModInt.new 3 5) (ModInt.new 4 5) =
      some (compare (ModInt.new 3 5).num (ModInt.new 4 5).num) :=
  ⟨(claim_c9_pcmp_graceful (ModInt.new 1 10) (ModInt.new 1 7)).1
      (Or.inl ⟨10, 7, rfl, rfl, by decide⟩),
   (claim_c9_pcmp_graceful (ModInt.new 3 5) (ModInt.new 4 5)).2 (Or.inl ⟨5, rfl, rfl⟩)⟩

/-- Claim C10: the remainder operator computes self.num % rhs.num with no
guard: zero rhs residue divides by zero and panics, and a nonzero rhs
residue gives a result in [0, rhs residue) without the compensated
normalization. -/
theorem claim_c10_rem_unguarded (a b : ModInt)
    (hc : (check_mod_eq a b).2 = true)
    (hia : SpecInvariant a) (hib : SpecInvariant b) :
    (b.num = 0 → ModInt.rem a b = none) ∧
    (b.num ≠ 0 →
      ModInt.rem a b =
        some { num := a.num.tmod b.num, _modulo := Modulo.Static (check_mod_eq a b).1 } ∧
      0 ≤ a.num.tmod b.num ∧ a.num.tmod b.num < b.num) := by
  have ha0 : 0 ≤ a.num := specInvariant_nonneg a hia
  have hb0 : 0 ≤ b.num := specInvariant_nonneg b hib
  constructor
  · intro hz
    simp [ModInt.rem, hc, hz]
  · intro hnz
    have hbpos : 0 < b.num := by omega
    refine ⟨by simp [ModInt.rem, hc, hnz], Int.tmod_nonneg _ ha0, Int.tmod_lt_of_pos _ hbpos⟩

theorem claim_c10_rem_unguarded_witness :
    (ModInt.rem (ModInt.new 7 10) (ModInt.new 3 10) =
      some { num := (ModInt.new 7 10).num.tmod (ModInt.new 3 10).num,
             _modulo := Modulo.Static (check_mod_eq (ModInt.new 7 10) (ModInt.new 3 10)).1 } ∧
      0 ≤ (ModInt.new 7 10).num.tmod (ModInt.new 3 10).num ∧
      (ModInt.new 7 10).num.tmod (ModInt.new 3 10).num < (ModInt.new 3 10).num) :=
  (claim_c10_rem_unguarded (ModInt.new 7 10) (ModInt.new 3 10)
    (by decide) (by decide) (by decide)).2 (by decide)

/-- Claim C3 (code bug): the three identity combinations a + zero(),
a * one() and one() * a behave as the claim states, but zero() + a panics:
Add compares the raw sum against self.get_mod(), which unwraps the LEFT
operand's modulus, and the left operand zero() carries the Dynamic
modulus, so the unwrap panics even though the compatibility check passed.
This theorem evaluates the code at the failing input. -/
theorem claim_c3_identity_laws_bug :
    ModInt.add (ModInt.new 3 5) ModInt.zero = some (ModInt.new 3 5) ∧
    ModInt.mul (ModInt.new 3 5) ModInt.one = some (ModInt.new 3 5) ∧
    ModInt.mul ModInt.one (ModInt.new 3 5) = some (ModInt.new 3 5) ∧
    ModInt.add ModInt.zero (ModInt.new 3 5) = none := by
  decide

/-- Characterization of Div when the divisor has a Static modulus shared
with the dividend and its inverse evaluates to i. -/
theorem div_static (a b : ModInt) (m : Nat) (i : Int)
    (ha : a._modulo = Modulo.Static m) (hb : b._modulo = Modulo.Static m)
    (hi : ModInt.inv b = some i) :
    ModInt.div a b =
      some { num := (wrap64 (a.num * i)).tmod (m : Int), _modulo := Modulo.Static m } := by
  simp [ModInt.div, check_mod_eq, ha, hb, hi, ModInt.get]

/-- Claim C2 (amended): the product law (a * b).residue =
(a.residue * b.residue) mod m holds whenever the i64 intermediate cannot
overflow, which is guaranteed for every modulus m ≤ 3037000499 (and more
generally whenever the residue product stays below 2^63); the i64
intermediate is NOT wide enough for all residues below a 32-bit modulus. -/
theorem claim_c2_mul_law_amended (a b : ModInt) (m : Nat)
    (ha : a._modulo = Modulo.Static m) (hb : b._modulo = Modulo.Static m)
    (hm : 0 < m) (hmle : m ≤ 3037000499)
    (hia : 0 ≤ a.num ∧ a.num < (m : Int)) (hib : 0 ≤ b.num ∧ b.num < (m : Int)) :
    ModInt.mul a b = some { num := a.num * b.num % (m : Int), _modulo := Modulo.Static m } := by
  have hcast : (m : Int) ≤ 3037000499 := by exact_mod_cast hmle
  have hp0 : 0 ≤ a.num * b.num := mul_nonneg hia.1 hib.1
  have hp1 : a.num * b.num ≤ ((m : Int) - 1) * ((m : Int) - 1) :=
    mul_le_mul (by omega) (by omega) hib.1 (by omega)
  have hp2 : ((m : Int) - 1) * ((m : Int) - 1) < 2 ^ 63 := by nlinarith
  rw [mul_static a b m ha hb, wrap64_id _ (by omega) (by omega),
    compensated_rem_eq_emod _ _ hm]

theorem claim_c2_mul_law_amended_witness :
    ModInt.mul (ModInt.new 2 5) (ModInt.new 3 5) =
      some { num := (ModInt.new 2 5).num * (ModInt.new 3 5).num % (5 : Int),
             _modulo := Modulo.Static 5 } :=
  claim_c2_mul_law_amended (ModInt.new 2 5) (ModInt.new 3 5) 5 rfl rfl
    (by decide) (by decide) (by decide) (by decide)

/-- Claim C2 counterexample: at the modulus 2^32 - 1 with both residues
2^32 - 2, the i64 product overflows; the code yields residue 0 while
(a.residue * b.residue) mod m = 1, refuting the claim as stated. -/
theorem claim_c2_mul_overflow_counterexample :
    ModInt.mul (ModInt.new 4294967294 4294967295) (ModInt.new 4294967294 4294967295) =
      some { num := 0, _modulo := Modulo.Static 4294967295 } ∧
    (ModInt.new 4294967294 4294967295).num * (ModInt.new 4294967294 4294967295).num %
      (4294967295 : Int) = 1 := by
  decide

/-- Claim C4 (amended): for a Fixed modulus m and a residue coprime to m,
inv() returns the compensated-remainder normalization of the Bezout
coefficient, a value in [0, m) with (a.residue * inv) mod m = 1 mod m
(equal to 1 for every m ≥ 2; at m = 1 both sides collapse to 0);
new(6, 13).inv() = 11. -/
theorem claim_c4_inv_amended (a : ModInt) (m : Nat)
    (ha : a._modulo = Modulo.Static m) (hm : 0 < m)
    (hia : 0 ≤ a.num ∧ a.num < (m : Int))
    (hgcd : Int.gcd a.num (m : Int) = 1) :
    (∃ i, ModInt.inv a = some i ∧ 0 ≤ i ∧ i < (m : Int) ∧
      a.num * i % (m : Int) = 1 % (m : Int)) ∧
    ModInt.inv (ModInt.new 6 13) = some 11 := by
  constructor
  · rw [inv_static a m ha]
    have hmc : (0 : Int) ≤ (m : Int) := by positivity
    obtain ⟨hlin, hdva, hdvb, hge⟩ := extended_gcd_spec a.num (m : Int) hia.1 hmc
    have hnd : (extended_gcd a.num (m : Int)).1.natAbs ∣ Int.gcd a.num (m : Int) :=
      Nat.dvd_gcd (Int.natAbs_dvd_natAbs.mpr hdva) (Int.natAbs_dvd_natAbs.mpr hdvb)
    rw [hgcd] at hnd
    have hg1 : (extended_gcd a.num (m : Int)).1 = 1 := by
      have h1 := Nat.dvd_one.mp hnd
      have h2 := Int.natAbs_of_nonneg hge
      omega
    refine ⟨_, rfl, compensated_rem_nonneg _ _ hm, compensated_rem_lt _ _ hm, ?_⟩
    rw [compensated_rem_eq_emod _ _ hm, Int.mul_emod, Int.emod_emod_of_dvd _ dvd_rfl,
      ← Int.mul_emod]
    have hx : a.num * (extended_gcd a.num (m : Int)).2.1 = 1 + (m : Int) *
        (-(extended_gcd a.num (m : Int)).2.2) := by
      rw [hg1] at hlin
      linarith
    rw [hx, Int.add_mul_emod_self_left]
  · rw [inv_static (ModInt.new 6 13) 13 rfl]
    unfold extended_gcd
    rw [egcdLoop_eq_fuel 14 _ _ _ _ _ _ (by decide)]
    decide

theorem claim_c4_inv_amended_witness :
    ModInt.inv (ModInt.new 6 13) = some 11 ∧ Int.gcd (ModInt.new 6 13).num ((13 : Nat) : Int) = 1 :=
  ⟨(claim_c4_inv_amended (ModInt.new 6 13) 13 rfl (by decide) (by decide) (by decide)).2,
   by decide⟩

/-- Claim C4 counterexample: at m = 1 the residue 0 is coprime to the
modulus and inv() returns 0, but (0 * 0) mod 1 = 0, not 1, refuting the
inverse law as literally stated for the modulus 1. -/
theorem claim_c4_inv_counterexample :
    Int.gcd (ModInt.new 0 1).num ((1 : Nat) : Int) = 1 ∧
    ModInt.inv (ModInt.new 0 1) = some 0 ∧
    ¬ ((ModInt.new 0 1).num * 0 % ((1 : Nat) : Int) = 1) := by
  refine ⟨by decide, ?_, by decide⟩
  rw [inv_static (ModInt.new 0 1) 1 rfl]
  unfold extended_gcd
  rw [egcdLoop_eq_fuel 2 _ _ _ _ _ _ (by decide)]
  decide

/-- Claim C6 (amended): for every Fixed modulus m and exponent e,
pow(e) yields residue (a.residue^e) mod m via square-and-multiply with
both accumulator and base kept reduced; pow(0) yields residue 1 mod m
(equal to 1 for every m ≥ 2, but 0 at the modulus m = 1);
new(3, 10).pow(3).residue = 7. -/
theorem claim_c6_pow_law_amended (a : ModInt) (m : Nat) (e : Nat)
    (ha : a._modulo = Modulo.Static m) (hm : 0 < m) (hm32 : m ≤ 2 ^ 32 - 1)
    (hia : 0 ≤ a.num ∧ a.num < (m : Int)) :
    (∃ r, ModInt.pow a e = some r ∧ r._modulo = Modulo.Static m ∧
      r.num = a.num ^ e % (m : Int)) ∧
    (ModInt.pow a 0).map ModInt.get = some (1 % (m : Int)) ∧
    (ModInt.pow (ModInt.new 3 10) 3).map ModInt.get = some 7 := by
  have hm32c : (m : Int) ≤ 4294967295 := by exact_mod_cast (show m ≤ 4294967295 by omega)
  have hu : usizeOfI64 a.num = a.num.toNat := by
    unfold usizeOfI64
    rw [Int.emod_eq_of_lt hia.1 (by omega)]
  refine ⟨?_, ?_, ?_⟩
  · rw [pow_static a m ha e, hu]
    refine ⟨_, rfl, rfl, ?_⟩
    show compensated_rem ((powLoop 1 a.num.toNat m e : Nat) : Int) m = a.num ^ e % (m : Int)
    rw [compensated_rem_eq_emod _ _ hm]
    have h1 : powLoop 1 a.num.toNat m e % m = a.num.toNat ^ e % m := by
      rw [powLoop_mod 1 a.num.toNat m e hm, one_mul]
    calc ((powLoop 1 a.num.toNat m e : Nat) : Int) % (m : Int)
        = ((powLoop 1 a.num.toNat m e % m : Nat) : Int) := by push_cast; ring_nf
      _ = ((a.num.toNat ^ e % m : Nat) : Int) := by rw [h1]
      _ = a.num ^ e % (m : Int) := by
          push_cast [Int.toNat_of_nonneg hia.1]
          ring_nf
  · rw [pow_static a m ha 0]
    have h0 : powLoop 1 (usizeOfI64 a.num) m 0 = 1 := by
      rw [powLoop_eq_fuel 1 1 (usizeOfI64 a.num) m 0 (by decide)]
      rfl
    rw [h0]
    show some (compensated_rem ((1 : Nat) : Int) m) = some (1 % (m : Int))
    rw [compensated_rem_eq_emod _ _ hm]
    norm_num
  · rw [pow_static (ModInt.new 3 10) 10 rfl 3,
      powLoop_eq_fuel 4 1 (usizeOfI64 (ModInt.new 3 10).num) 10 3 (by decide)]
    decide

theorem claim_c6_pow_law_amended_witness :
    (ModInt.pow (ModInt.new 3 10) 0).map ModInt.get = some (1 % (10 : Int)) ∧
    (ModInt.pow (ModInt.new 3 10) 3).map ModInt.get = some 7 :=
  ⟨(claim_c6_pow_law_amended (ModInt.new 3 10) 10 3 rfl (by decide) (by decide) (by decide)).2.1,
   (claim_c6_pow_law_amended (ModInt.new 3 10) 10 3 rfl (by decide) (by decide) (by decide)).2.2⟩

/-- Claim C6 counterexample: at the modulus m = 1 the claim's conjunct
pow(0) == 1 fails: new(0, 1).pow(0) has residue 0 (the loop's seed 1 is
renormalized through new, which reduces it mod 1), not 1. -/
theorem claim_c6_pow_zero_counterexample :
    (ModInt.pow (ModInt.new 0 1) 0).map ModInt.get = some 0 ∧
    ¬ ((ModInt.pow (ModInt.new 0 1) 0).map ModInt.get = some 1) := by
  have h : ModInt.pow (ModInt.new 0 1) 0 =
      some (ModInt.new ((powLoop 1 (usizeOfI64 (ModInt.new 0 1).num) 1 0 : Nat) : Int) 1) :=
    pow_static (ModInt.new 0 1) 1 rfl 0
  rw [powLoop_eq_fuel 1 1 (usizeOfI64 (ModInt.new 0 1).num) 1 0 (by decide)] at h
  constructor
  · rw [h]; decide
  · rw [h]; decide

theorem new_invariant (n : Int) (m : Nat) (hm : 0 < m) : SpecInvariant (ModInt.new n m) := by
  show 0 ≤ compensated_rem n m ∧ compensated_rem n m < (m : Int)
  exact ⟨compensated_rem_nonneg n m hm, compensated_rem_lt n m hm⟩

theorem add_invariant (a b : ModInt) (hia : SpecInvariant a) (hib : SpecInvariant b)
    (r : ModInt) (h : ModInt.add a b = some r) : SpecInvariant r := by
  obtain ⟨na, ma⟩ := a
  obtain ⟨nb, mb⟩ := b
  cases ma with
  | Dynamic =>
    cases mb with
    | Static y =>
      simp [ModInt.add, check_mod_eq, ModInt.get_mod, Modulo.get] at h
    | Dynamic =>
      simp [ModInt.add, check_mod_eq] at h
  | Static x =>
    simp [SpecInvariant] at hia
    cases mb with
    | Static y =>
      by_cases hxy : x = y
      · subst hxy
        simp [SpecInvariant] at hib
        simp [ModInt.add, check_mod_eq, ModInt.get_mod, Modulo.get, ModInt.get] at h
        subst h
        simp [SpecInvariant]
        split_ifs <;> omega
      · simp [ModInt.add, check_mod_eq, hxy] at h
    | Dynamic =>
      simp [SpecInvariant] at hib
      simp [ModInt.add, check_mod_eq, ModInt.get_mod, Modulo.get, ModInt.get] at h
      subst h
      simp [SpecInvariant]
      split_ifs <;> omega

theorem specInvariant_mk_static (v : Int) (m : Nat) (h0 : 0 ≤ v) (h1 : v < (m : Int)) :
    SpecInvariant { num := v, _modulo := Modulo.Static m } := by
  simp [SpecInvariant]
  exact ⟨h0, h1⟩

theorem sub_invariant (a b : ModInt) (hia : SpecInvariant a) (hib : SpecInvariant b)
    (r : ModInt) (h : ModInt.sub a b = some r) : SpecInvariant r := by
  obtain ⟨na, ma⟩ := a
  obtain ⟨nb, mb⟩ := b
  cases ma with
  | Dynamic =>
    cases mb with
    | Static y =>
      simp [SpecInvariant] at hib
      simp [ModInt.sub, check_mod_eq, ModInt.get] at h
      subst h
      exact specInvariant_mk_static _ _ (compensated_rem_nonneg _ _ (by omega))
        (compensated_rem_lt _ _ (by omega))
    | Dynamic => simp [ModInt.sub, check_mod_eq] at h
  | Static x =>
    simp [SpecInvariant] at hia
    cases mb with
    | Static y =>
      by_cases hxy : x = y
      · subst hxy
        simp [ModInt.sub, check_mod_eq, ModInt.get] at h
        subst h
        exact specInvariant_mk_static _ _ (compensated_rem_nonneg _ _ (by omega))
          (compensated_rem_lt _ _ (by omega))
      · simp [ModInt.sub, check_mod_eq, hxy] at h
    | Dynamic =>
      simp [ModInt.sub, check_mod_eq, ModInt.get] at h
      subst h
      exact specInvariant_mk_static _ _ (compensated_rem_nonneg _ _ (by omega))
        (compensated_rem_lt _ _ (by omega))

theorem mul_invariant (a b : ModInt) (hia : SpecInvariant a) (hib : SpecInvariant b)
    (r : ModInt) (h : ModInt.mul a b = some r) : SpecInvariant r := by
  obtain ⟨na, ma⟩ := a
  obtain ⟨nb, mb⟩ := b
  cases ma with
  | Dynamic =>
    cases mb with
    | Static y =>
      simp [SpecInvariant] at hib
      simp [ModInt.mul, check_mod_eq, ModInt.get] at h
      subst h
      exact specInvariant_mk_static _ _ (compensated_rem_nonneg _ _ (by omega))
        (compensated_rem_lt _ _ (by omega))
    | Dynamic => simp [ModInt.mul, check_mod_eq] at h
  | Static x =>
    simp [SpecInvariant] at hia
    cases mb with
    | Static y =>
      by_cases hxy : x = y
      · subst hxy
        simp [ModInt.mul, check_mod_eq, ModInt.get] at h
        subst h
        exact specInvariant_mk_static _ _ (compensated_rem_nonneg _ _ (by omega))
          (compensated_rem_lt _ _ (by omega))
      · simp [ModInt.mul, check_mod_eq, hxy] at h
    | Dynamic =>
      simp [ModInt.mul, check_mod_eq, ModInt.get] at h
      subst h
      exact specInvariant_mk_static _ _ (compensated_rem_nonneg _ _ (by omega))
        (compensated_rem_lt _ _ (by omega))

theorem rem_invariant (a b : ModInt) (hia : SpecInvariant a) (hib : SpecInvariant b)
    (r : ModInt) (h : ModInt.rem a b = some r) : SpecInvariant r := by
  obtain ⟨na, ma⟩ := a
  obtain ⟨nb, mb⟩ := b
  by_cases hz : nb = 0
  · subst hz
    simp [ModInt.rem, check_mod_eq] at h
  · cases ma with
    | Dynamic =>
      cases mb with
      | Static y =>
        simp [SpecInvariant] at hia hib
        simp [ModInt.rem, check_mod_eq, hz] at h
        subst h
        refine specInvariant_mk_static _ _ (Int.tmod_nonneg _ (by omega)) ?_
        have h1 : na.tmod nb < nb := Int.tmod_lt_of_pos _ (by omega)
        omega
      | Dynamic => simp [ModInt.rem, check_mod_eq] at h
    | Static x =>
      simp [SpecInvariant] at hia
      cases mb with
      | Static y =>
        by_cases hxy : x = y
        · subst hxy
          simp [SpecInvariant] at hib
          simp [ModInt.rem, check_mod_eq, hz] at h
          subst h
          refine specInvariant_mk_static _ _ (Int.tmod_nonneg _ (by omega)) ?_
          have h1 : na.tmod nb < nb := Int.tmod_lt_of_pos _ (by omega)
          omega
        · simp [ModInt.rem, check_mod_eq, hxy] at h
      | Dynamic =>
        simp [SpecInvariant] at hib
        simp [ModInt.rem, check_mod_eq, hz] at h
        subst h
        have hb1 : nb = 1 := by omega
        subst hb1
        refine specInvariant_mk_static _ _ (Int.tmod_nonneg _ (by omega)) ?_
        rw [Int.tmod_one]
        omega

theorem pow_invariant (a : ModInt) (hia : SpecInvariant a)
    (r : ModInt) (e : Nat) (h : ModInt.pow a e = some r) : SpecInvariant r := by
  obtain ⟨na, ma⟩ := a
  cases ma with
  | Dynamic => simp [ModInt.pow, ModInt.pow_mod, ModInt.get_mod, Modulo.get] at h
  | Static x =>
    simp [SpecInvariant] at hia
    rw [pow_static ⟨na, Modulo.Static x⟩ x rfl e] at h
    simp at h
    subst h
    exact new_invariant _ _ (by omega)

theorem div_invariant (a b : ModInt) (hia : SpecInvariant a) (hib : SpecInvariant b)
    (r : ModInt) (m : Nat) (hbm : b._modulo = Modulo.Static m) (hmle : m ≤ 3037000499)
    (h : ModInt.div a b = some r) : SpecInvariant r := by
  obtain ⟨na, ma⟩ := a
  obtain ⟨nb, mb⟩ := b
  simp at hbm
  subst hbm
  simp [SpecInvariant] at hib
  have hm : 0 < m := by omega
  have hmi : (0 : Int) < (m : Int) := by exact_mod_cast hm
  have hcast : (m : Int) ≤ 3037000499 := by exact_mod_cast hmle
  have hinv : ModInt.inv ⟨nb, Modulo.Static m⟩ =
      some (compensated_rem (extended_gcd nb (m : Int)).2.1 m) := inv_static _ m rfl
  have hi0 : 0 ≤ compensated_rem (extended_gcd nb (m : Int)).2.1 m :=
    compensated_rem_nonneg _ _ hm
  have hi1 : compensated_rem (extended_gcd nb (m : Int)).2.1 m < (m : Int) :=
    compensated_rem_lt _ _ hm
  cases ma with
  | Dynamic =>
    simp [SpecInvariant] at hia
    simp [ModInt.div, check_mod_eq, hinv, ModInt.get] at h
    subst h
    have hp0 : 0 ≤ na * compensated_rem (extended_gcd nb (m : Int)).2.1 m :=
      mul_nonneg (by omega) hi0
    have hp2 : na * compensated_rem (extended_gcd nb (m : Int)).2.1 m ≤
        1 * compensated_rem (extended_gcd nb (m : Int)).2.1 m :=
      mul_le_mul_of_nonneg_right (by omega) hi0
    have hp1 : na * compensated_rem (extended_gcd nb (m : Int)).2.1 m < 2 ^ 63 := by
      have := hi1
      linarith
    rw [wrap64_id _ (by omega) hp1]
    exact specInvariant_mk_static _ _ (Int.tmod_nonneg _ hp0) (Int.tmod_lt_of_pos _ hmi)
  | Static x =>
    by_cases hxm : x = m
    · subst hxm
      simp [SpecInvariant] at hia
      simp [ModInt.div, check_mod_eq, hinv, ModInt.get] at h
      subst h
      have hp0 : 0 ≤ na * compensated_rem (extended_gcd nb (x : Int)).2.1 x :=
        mul_nonneg hia.1 hi0
      have hp2 : na * compensated_rem (extended_gcd nb (x : Int)).2.1 x ≤
          ((x : Int) - 1) * ((x : Int) - 1) :=
        mul_le_mul (by omega) (by omega) hi0 (by omega)
      have hp3 : ((x : Int) - 1) * ((x : Int) - 1) < 2 ^ 63 := by nlinarith
      rw [wrap64_id _ (by omega) (by omega)]
      exact specInvariant_mk_static _ _ (Int.tmod_nonneg _ hp0) (Int.tmod_lt_of_pos _ hmi)
    · simp [ModInt.div, check_mod_eq, hxm] at h

/-- Claim C8 (amended): construction and the arithmetic operators preserve
the Fixed-modulus range invariant provided every operand satisfies the
spec's full representation invariant (Fixed residues in [0, m), Unset
residues 0 or 1) and, for division only, the modulus is at most 3037000499
so the i64 intermediate product cannot overflow.  The claim as stated is
refuted by the counterexample: from_str_radix yields reachable
Unset-modulus values with arbitrary residues, which break Add's
single-subtraction normalization, and division at moduli near 2^32
overflows its i64 intermediate and can return a negative residue. -/
theorem claim_c8_invariant_amended (a b : ModInt)
    (hia : SpecInvariant a) (hib : SpecInvariant b) :
    (∀ n m, 0 < m → SpecInvariant (ModInt.new n m)) ∧
    (∀ r, ModInt.add a b = some r → SpecInvariant r) ∧
    (∀ r, ModInt.sub a b = some r → SpecInvariant r) ∧
    (∀ r, ModInt.mul a b = some r → SpecInvariant r) ∧
    (∀ r, ModInt.rem a b = some r → SpecInvariant r) ∧
    (∀ r m, b._modulo = Modulo.Static m → m ≤ 3037000499 →
      ModInt.div a b = some r → SpecInvariant r) ∧
    (∀ r e, ModInt.pow a e = some r → SpecInvariant r) :=
  ⟨fun n m hm => new_invariant n m hm,
   fun r h => add_invariant a b hia hib r h,
   fun r h => sub_invariant a b hia hib r h,
   fun r h => mul_invariant a b hia hib r h,
   fun r h => rem_invariant a b hia hib r h,
   fun r m hbm hmle h => div_invariant a b hia hib r m hbm hmle h,
   fun r e h => pow_invariant a hia r e h⟩

theorem claim_c8_invariant_amended_witness : SpecInvariant (ModInt.new 7 8) :=
  (claim_c8_invariant_amended (ModInt.new 13 8) (ModInt.new 10 8)
    (by decide) (by decide)).2.1 (ModInt.new 7 8) (by decide)

/-- Claim C8 counterexample: two reachable violations of the stated
invariant.  First, from_str_radix("12", 10) is an Unset-modulus value with
residue 12 reachable through the public Num interface, and adding it to
new(2, 5) yields a Fixed(5) value with residue 9, outside [0, 5).  Second,
new(4294967293, 4294967295) / new(4294967294, 4294967295) overflows the
i64 product with the divisor's inverse and returns the negative residue
-4294967294 under Fixed(4294967295). -/
theorem claim_c8_invariant_counterexample :
    ((from_str_radix ['1', '2'] 10).bind (fun b => ModInt.add (ModInt.new 2 5) b) =
      some { num := 9, _modulo := Modulo.Static 5 } ∧
      ¬ SpecInvariant { num := (9 : Int), _modulo := Modulo.Static 5 }) ∧
    (ModInt.div (ModInt.new 4294967293 4294967295) (ModInt.new 4294967294 4294967295) =
      some { num := -4294967294, _modulo := Modulo.Static 4294967295 } ∧
      ¬ SpecInvariant { num := (-4294967294 : Int), _modulo := Modulo.Static 4294967295 }) := by
  refine ⟨⟨by decide, by decide⟩, ?_, by decide⟩
  have hinv : ModInt.inv (ModInt.new 4294967294 4294967295) = some 4294967294 := by
    rw [inv_static (ModInt.new 4294967294 4294967295) 4294967295 rfl]
    unfold extended_gcd
    rw [egcdLoop_eq_fuel 4294967296 _ _ _ _ _ _ (by decide)]
    decide
  rw [div_static (ModInt.new 4294967293 4294967295) (ModInt.new 4294967294 4294967295)
    4294967295 4294967294 rfl rfl hinv]
  decide
